import Mathlib

/-!
Verification of the Savitzky–Golay temperature-smoothing module
(`temperature_smoothing.py`): a simplified Savitzky–Golay filter
(window derivation, pseudo-inverse coefficients, rolling sample buffer,
deviation-reflection edge padding, valid-mode convolution) and the thin
printer-sensor adapter around it.

Machine floats are modelled as exact rationals `ℚ`; `numpy` arrays as
`List ℚ`; exceptions as `Except String`.
-/

namespace TempSmoothing

/-- The fixed sample period: `REPORT_TIME = 0.300` seconds. -/
def REPORT_TIME : ℚ := 3 / 10

/-- The design matrix built in `SavitzkyGolaySmoother.__init__`:
`[[k**i for i in range(order + 1)] for k in range(-window_length, window_length + 1)]`.
Row index `k : Fin (2*w+1)` corresponds to the integer offset `k - w`. -/
def designMatrix (order w : ℕ) : Matrix (Fin (2 * w + 1)) (Fin (order + 1)) ℚ :=
  Matrix.of fun k i => ((k : ℚ) - (w : ℚ)) ^ (i : ℕ)

/-- Computable matrix inverse over `ℚ` (equal to Mathlib's noncomputable `A⁻¹`,
see `matInvQ_eq_inv`). -/
def matInvQ {n : Type*} [Fintype n] [DecidableEq n] (A : Matrix n n ℚ) : Matrix n n ℚ :=
  A.det⁻¹ • A.adjugate

/-- Row `0` of `np.linalg.pinv(M)` for the full-column-rank design matrix `M`,
via the normal-equations form `(MᵀM)⁻¹Mᵀ` of the Moore–Penrose pseudo-inverse. -/
def pinvRow0 (order w : ℕ) (k : Fin (2 * w + 1)) : ℚ :=
  (matInvQ ((designMatrix order w).transpose * designMatrix order w) *
    (designMatrix order w).transpose) 0 k

/-- The coefficient vector `self.coeff_m = np.linalg.pinv(...).A[0]` as a list. -/
def coeff_m_list (order w : ℕ) : List ℚ :=
  (List.finRange (2 * w + 1)).map (pinvRow0 order w)

/-- State of a `SavitzkyGolaySmoother` instance: the derived window spec,
the coefficient vector and the rolling sample buffer (`self._values`). -/
structure SavitzkyGolaySmoother where
  frame_length : ℕ
  window_length : ℕ
  coeff_m : List ℚ
  values : List ℚ
deriving DecidableEq

/-- The frame length computed by `__init__` before validation:
`max(order, ceil(smooth_time / REPORT_TIME))`, incremented by 1 when even. -/
def initFrameLength (order : ℕ) (smooth_time : ℚ) : ℤ :=
  let fl : ℤ := max (order : ℤ) ⌈smooth_time / REPORT_TIME⌉
  if fl % 2 = 0 then fl + 1 else fl

/-- Constructor `SavitzkyGolaySmoother.__init__(order, smooth_time)`: derives the frame
length, rejects windows shorter than `order + 2` (the Python code raises
`TypeError`), and otherwise builds the coefficient vector and the
zero-initialized sample buffer. -/
def SavitzkyGolaySmoother.init (order : ℕ) (smooth_time : ℚ) :
    Except String SavitzkyGolaySmoother :=
  let fl := initFrameLength order smooth_time
  if fl < (order : ℤ) + 2 then
    .error "smooth_time is too short for the polynomials order"
  else
    let n := fl.toNat
    .ok { frame_length := n,
          window_length := (n - 1) / 2,
          coeff_m := coeff_m_list order ((n - 1) / 2),
          values := List.replicate n 0 }

/-- Operation `reset(temp)`: `self._values = np.tile([temp], self.frame_length)`. -/
def SavitzkyGolaySmoother.reset (s : SavitzkyGolaySmoother) (temp : ℚ) :
    SavitzkyGolaySmoother :=
  { s with values := List.replicate s.frame_length temp }

/-- Operation `update(temp)`: `self._values[:-1] = self._values[1:]; self._values[-1] = temp`
— shift the buffer left by one and put `temp` in the last slot. -/
def SavitzkyGolaySmoother.update (s : SavitzkyGolaySmoother) (temp : ℚ) :
    SavitzkyGolaySmoother :=
  { s with values := s.values.drop 1 ++ [temp] }

/-- The left pad of `smooth()`:
`self._values[0] - np.abs(self._values[1 : window_length + 1][::-1] - self._values[0])`. -/
def SavitzkyGolaySmoother.pad_left (s : SavitzkyGolaySmoother) : List ℚ :=
  ((s.values.drop 1).take s.window_length).reverse.map
    (fun x => s.values.getD 0 0 - |x - s.values.getD 0 0|)

/-- The right pad of `smooth()`:
`self._values[-1] + np.abs(self._values[-window_length - 1 : -1][::-1] - self._values[-1])`. -/
def SavitzkyGolaySmoother.pad_right (s : SavitzkyGolaySmoother) : List ℚ :=
  ((s.values.take (s.values.length - 1)).drop
      (s.values.length - 1 - s.window_length)).reverse.map
    (fun x => s.values.getLastD 0 + |x - s.values.getLastD 0|)

/-- Semantics of `np.convolve(a, v, mode="valid")` for `a.length ≤ v.length`: output `t` is
full-convolution entry `t + a.length - 1`, i.e. `∑ j, a[j] * v[t + a.length - 1 - j]`. -/
def convolve_valid (a v : List ℚ) : List ℚ :=
  (List.range (v.length + 1 - a.length)).map fun t =>
    ∑ j ∈ Finset.range a.length, a.getD j 0 * v.getD (t + (a.length - 1 - j)) 0

/-- Operation `smooth()`: valid-mode convolution of the reversed coefficient kernel with
`pad_left ++ values ++ pad_right`. -/
def SavitzkyGolaySmoother.smooth (s : SavitzkyGolaySmoother) : List ℚ :=
  convolve_valid s.coeff_m.reverse (s.pad_left ++ s.values ++ s.pad_right)

/-- Round-half-even to the nearest integer (Python's `round`). -/
def roundHalfEven (q : ℚ) : ℤ :=
  if q - ⌊q⌋ = 1 / 2 then (if Even ⌊q⌋ then ⌊q⌋ else ⌊q⌋ + 1) else round q

/-- Python's `round(x, 2)`. -/
def round2 (q : ℚ) : ℚ := (roundHalfEven (100 * q) : ℚ) / 100

/-- The adapter state relevant to smoothing: the wrapped smoother plus
`last_temp`, `min_temp`, `max_temp`. -/
structure PrinterSensorSmoothed where
  smoother : SavitzkyGolaySmoother
  last_temp : ℚ
  min_temp : ℚ
  max_temp : ℚ
deriving DecidableEq

/-- Method `apply_smoothing()`: `round(self.smoother.smooth()[-1], 2)`. -/
def PrinterSensorSmoothed.apply_smoothing (p : PrinterSensorSmoothed) : ℚ :=
  round2 (p.smoother.smooth.getLastD 0)

/-- Method `update_temp(eventtime)`: feed the raw sensor reading to the smoother,
then `temp = self.apply_smoothing(); if temp: self.last_temp = temp`
(Python float truthiness: the assignment happens only when `temp ≠ 0`). -/
def PrinterSensorSmoothed.update_temp (p : PrinterSensorSmoothed) (reading : ℚ) :
    PrinterSensorSmoothed :=
  let p1 : PrinterSensorSmoothed := { p with smoother := p.smoother.update reading }
  let temp := p1.apply_smoothing
  if temp ≠ 0 then { p1 with last_temp := temp } else p1

/-- Method `get_temp(eventtime)`: returns `(self.last_temp, 0.0)`. -/
def PrinterSensorSmoothed.get_temp (p : PrinterSensorSmoothed) : ℚ × ℚ :=
  (p.last_temp, 0)

/-- Does construction succeed? -/
def isOkE (e : Except String SavitzkyGolaySmoother) : Bool :=
  match e with
  | .ok _ => true
  | .error _ => false

/-- The state `SavitzkyGolaySmoother(order=0, smooth_time=0.9)` produces
(frame length 3, uniform kernel, zeroed buffer); see `init_order_zero_eval`. -/
def sZero3 : SavitzkyGolaySmoother :=
  { frame_length := 3, window_length := 1,
    coeff_m := [1 / 3, 1 / 3, 1 / 3], values := [0, 0, 0] }

/-- An adapter state whose previous reading was `5.0` while the raw signal has
settled at `0.0` (buffer all zeros). -/
def pZero : PrinterSensorSmoothed :=
  { smoother := sZero3, last_temp := 5, min_temp := 0, max_temp := 100 }

/-- The order-0 smoother with a strictly increasing buffer `[1, 2, 3]`. -/
def sInc : SavitzkyGolaySmoother :=
  { sZero3 with values := [1, 2, 3] }

/-! ### Construction invariants -/

theorem initFrameLength_nonneg (order : ℕ) (st : ℚ) : 0 ≤ initFrameLength order st := by
  simp only [initFrameLength]
  split <;> omega

theorem initFrameLength_odd (order : ℕ) (st : ℚ) : initFrameLength order st % 2 = 1 := by
  simp only [initFrameLength]
  split <;> omega

theorem initFrameLength_ge (order : ℕ) (st : ℚ) :
    max (order : ℤ) ⌈st / REPORT_TIME⌉ ≤ initFrameLength order st := by
  simp only [initFrameLength]
  split <;> omega

/-- Eliminating a successful construction: all the derived fields. -/
theorem init_ok {order : ℕ} {st : ℚ} {s : SavitzkyGolaySmoother}
    (h : SavitzkyGolaySmoother.init order st = .ok s) :
    s.frame_length = (initFrameLength order st).toNat ∧
    (order : ℤ) + 2 ≤ initFrameLength order st ∧
    s.window_length = (s.frame_length - 1) / 2 ∧
    s.coeff_m = coeff_m_list order s.window_length ∧
    s.values = List.replicate s.frame_length 0 := by
  simp only [SavitzkyGolaySmoother.init] at h
  split at h
  · exact absurd h (by simp)
  · rename_i hge
    obtain rfl : _ = s := (Except.ok.injEq _ _).mp h
    refine ⟨rfl, by omega, rfl, rfl, rfl⟩

theorem init_ok_frame_odd {order : ℕ} {st : ℚ} {s : SavitzkyGolaySmoother}
    (h : SavitzkyGolaySmoother.init order st = .ok s) :
    s.frame_length % 2 = 1 := by
  obtain ⟨h1, -, -, -, -⟩ := init_ok h
  have h2 := initFrameLength_odd order st
  have h3 := initFrameLength_nonneg order st
  omega

theorem init_ok_frame_ge {order : ℕ} {st : ℚ} {s : SavitzkyGolaySmoother}
    (h : SavitzkyGolaySmoother.init order st = .ok s) :
    order + 2 ≤ s.frame_length := by
  obtain ⟨h1, h2, -, -, -⟩ := init_ok h
  have h3 := initFrameLength_nonneg order st
  omega

theorem init_ok_window {order : ℕ} {st : ℚ} {s : SavitzkyGolaySmoother}
    (h : SavitzkyGolaySmoother.init order st = .ok s) :
    s.frame_length = 2 * s.window_length + 1 := by
  obtain ⟨h1, -, h3, -, -⟩ := init_ok h
  have h2 := init_ok_frame_odd h
  omega

theorem coeff_m_list_length (order w : ℕ) : (coeff_m_list order w).length = 2 * w + 1 := by
  simp [coeff_m_list]

theorem init_ok_coeff_length {order : ℕ} {st : ℚ} {s : SavitzkyGolaySmoother}
    (h : SavitzkyGolaySmoother.init order st = .ok s) :
    s.coeff_m.length = s.frame_length := by
  obtain ⟨-, -, -, h4, -⟩ := init_ok h
  rw [h4, coeff_m_list_length, ← init_ok_window h]

theorem init_ok_values_length {order : ℕ} {st : ℚ} {s : SavitzkyGolaySmoother}
    (h : SavitzkyGolaySmoother.init order st = .ok s) :
    s.values.length = s.frame_length := by
  obtain ⟨-, -, -, -, h5⟩ := init_ok h
  simp [h5]

/-- C5: for every construction that succeeds, `frame_length` equals
`max(polynomial_order, ceil(smoothing_time_window / sample_period))`, incremented
by 1 if that value is even; the resulting `frame_length` is odd and at least
`polynomial_order + 2`, and `half_width = (frame_length - 1) / 2`. -/
theorem frame_length_derivation (order : ℕ) (st : ℚ) (s : SavitzkyGolaySmoother)
    (h : SavitzkyGolaySmoother.init order st = .ok s) :
    (s.frame_length : ℤ) =
      (if max (order : ℤ) ⌈st / REPORT_TIME⌉ % 2 = 0
        then max (order : ℤ) ⌈st / REPORT_TIME⌉ + 1
        else max (order : ℤ) ⌈st / REPORT_TIME⌉) ∧
    Odd s.frame_length ∧ order + 2 ≤ s.frame_length ∧
    s.window_length = (s.frame_length - 1) / 2 := by
  have h0 := initFrameLength_nonneg order st
  obtain ⟨h1, h2, h3, -, -⟩ := init_ok h
  refine ⟨?_, Nat.odd_iff.mpr (init_ok_frame_odd h), init_ok_frame_ge h, h3⟩
  have hz : (s.frame_length : ℤ) = initFrameLength order st := by omega
  simpa only [initFrameLength] using hz

/-- C2: constructing with `polynomial_order = 2`, `smoothing_time_window = 0.9`
and `sample_period = 0.3` derives `frame_length = max(2, ceil(0.9/0.3)) = 3`,
which is less than `polynomial_order + 2 = 4`, so construction fails with the
configuration error rather than succeeding. -/
theorem scenario_order2_smooth09_rejected :
    max (2 : ℤ) ⌈(9 / 10 : ℚ) / REPORT_TIME⌉ = 3 ∧
    (3 : ℤ) < 2 + 2 ∧
    SavitzkyGolaySmoother.init 2 (9 / 10) =
      .error "smooth_time is too short for the polynomials order" := by
  have hc : ⌈(9 / 10 : ℚ) / REPORT_TIME⌉ = 3 := by
    rw [REPORT_TIME]
    norm_num
  refine ⟨by rw [hc]; omega, by norm_num, ?_⟩
  have hf : initFrameLength 2 (9 / 10) = 3 := by
    simp only [initFrameLength, hc]
    norm_num
  simp only [SavitzkyGolaySmoother.init, hf]
  norm_num

/-- C4 (counterexample): with `polynomial_order = 1` and
`smoothing_time_window = 0.5` we have `ceil(0.5/0.3) = 2 < 1 + 2`, yet
construction succeeds (the odd-forcing bump lifts the frame length to
`3 = order + 2`), so the claim as stated is false. -/
theorem reject_short_window_counterexample :
    ⌈(1 / 2 : ℚ) / REPORT_TIME⌉ < (1 : ℤ) + 2 ∧
    isOkE (SavitzkyGolaySmoother.init 1 (1 / 2)) = true := by
  have hc : ⌈(1 / 2 : ℚ) / REPORT_TIME⌉ = 2 := by
    rw [REPORT_TIME]
    norm_num
    rw [Int.ceil_eq_iff]
    norm_num
  constructor
  · rw [hc]; norm_num
  · have hf : initFrameLength 1 (1 / 2) = 3 := by
      simp only [initFrameLength, hc]
      norm_num
    simp only [SavitzkyGolaySmoother.init, hf]
    norm_num [isOkE]

/-- C4 (amended): for every non-negative `polynomial_order` and every
`smoothing_time_window` with `ceil(smoothing_time_window / sample_period)
< polynomial_order + 2`, construction raises the configuration error —
except in the single case where `polynomial_order` is odd and the ceiling
equals `polynomial_order + 1` (there the odd-forcing bump lifts the frame
length to exactly `polynomial_order + 2` and construction succeeds). -/
theorem reject_short_window_amended (order : ℕ) (st : ℚ)
    (h1 : ⌈st / REPORT_TIME⌉ < (order : ℤ) + 2)
    (h2 : ¬(order % 2 = 1 ∧ ⌈st / REPORT_TIME⌉ = (order : ℤ) + 1)) :
    SavitzkyGolaySmoother.init order st =
      .error "smooth_time is too short for the polynomials order" := by
  have hlt : initFrameLength order st < (order : ℤ) + 2 := by
    simp only [initFrameLength]
    split <;> omega
  simp only [SavitzkyGolaySmoother.init, if_pos hlt]

/-- Witness for the amended C4: `order = 0`, `smooth_time = 0.1` satisfies both
hypotheses and construction indeed fails. -/
theorem reject_short_window_amended_witness :
    SavitzkyGolaySmoother.init 0 (1 / 10) =
      .error "smooth_time is too short for the polynomials order" := by
  have hc : ⌈(1 / 10 : ℚ) / REPORT_TIME⌉ = 1 := by
    rw [REPORT_TIME]
    norm_num
    rw [Int.ceil_eq_iff]
    norm_num
  exact reject_short_window_amended 0 (1 / 10) (by rw [hc]; norm_num)
    (by rw [hc]; norm_num)

/-- C7: `update(v)` shifts the buffer left by one position (discarding the
oldest sample) and places `v` in the last slot, preserving oldest-first order;
in particular, feeding `[1,2,3,4,5]` one at a time into a filter with
`frame_length = 5` that was reset to 0 leaves the buffer exactly `[1,2,3,4,5]`
oldest to newest. -/
theorem update_shifts_buffer (s : SavitzkyGolaySmoother) (v : ℚ)
    (h : 1 ≤ s.values.length) :
    (s.update v).values.length = s.values.length ∧
    (∀ i, i + 1 < s.values.length →
      (s.update v).values.getD i 0 = s.values.getD (i + 1) 0) ∧
    (s.update v).values.getD (s.values.length - 1) 0 = v ∧
    ∀ s5 : SavitzkyGolaySmoother, s5.frame_length = 5 →
      (((((((s5.reset 0).update 1).update 2).update 3).update 4).update 5).values : List ℚ)
        = [1, 2, 3, 4, 5] := by
  refine ⟨?_, ?_, ?_, ?_⟩
  · simp only [SavitzkyGolaySmoother.update, List.length_append, List.length_drop,
      List.length_cons, List.length_nil]
    omega
  · intro i hi
    have hd : i < (s.values.drop 1).length := by
      simp only [List.length_drop]
      omega
    rw [show (s.update v).values = s.values.drop 1 ++ [v] from rfl,
      List.getD_eq_getElem?_getD, List.getD_eq_getElem?_getD,
      List.getElem?_append_left hd, List.getElem?_drop,
      show 1 + i = i + 1 by omega]
  · rw [show (s.update v).values = s.values.drop 1 ++ [v] from rfl,
      List.getD_eq_getElem?_getD,
      List.getElem?_append_right (by simp only [List.length_drop]; omega)]
    simp only [List.length_drop]
    rw [show s.values.length - 1 - (s.values.length - 1) = 0 by omega]
    rfl
  · intro s5 h5
    simp only [SavitzkyGolaySmoother.update, SavitzkyGolaySmoother.reset, h5]
    decide

/-- Witness for C7 at the concrete state `⟨3, 1, [1,1,1], [9,8,7]⟩` and `v = 5`. -/
theorem update_shifts_buffer_witness :
    ((SavitzkyGolaySmoother.mk 3 1 [1, 1, 1] [(9 : ℚ), 8, 7]).update 5).values.getD
      ((SavitzkyGolaySmoother.mk 3 1 [1, 1, 1] [(9 : ℚ), 8, 7]).values.length - 1) 0 = 5 :=
  (update_shifts_buffer (SavitzkyGolaySmoother.mk 3 1 [1, 1, 1] [(9 : ℚ), 8, 7]) 5
    (by decide)).2.2.1

/-! ### Padding and convolution -/

theorem getLastD_eq_getD (l : List ℚ) : l.getLastD 0 = l.getD (l.length - 1) 0 := by
  rw [List.getLastD_eq_getLast?, List.getLast?_eq_getElem?, List.getD_eq_getElem?_getD]

theorem pad_left_length (s : SavitzkyGolaySmoother)
    (hn : s.values.length = 2 * s.window_length + 1) :
    s.pad_left.length = s.window_length := by
  simp only [SavitzkyGolaySmoother.pad_left, List.length_map, List.length_reverse,
    List.length_take, List.length_drop]
  omega

theorem pad_right_length (s : SavitzkyGolaySmoother)
    (hn : s.values.length = 2 * s.window_length + 1) :
    s.pad_right.length = s.window_length := by
  simp only [SavitzkyGolaySmoother.pad_right, List.length_map, List.length_reverse,
    List.length_drop, List.length_take]
  omega

theorem pad_left_getD (s : SavitzkyGolaySmoother)
    (hn : s.values.length = 2 * s.window_length + 1)
    {i : ℕ} (h1 : 1 ≤ i) (h2 : i ≤ s.window_length) :
    s.pad_left.getD (s.window_length - i) 0 =
      s.values.getD 0 0 - |s.values.getD i 0 - s.values.getD 0 0| := by
  have hl : ((s.values.drop 1).take s.window_length).length = s.window_length := by
    simp only [List.length_take, List.length_drop]
    omega
  rw [SavitzkyGolaySmoother.pad_left, List.getD_eq_getElem?_getD, List.getElem?_map,
    List.getElem?_reverse (by rw [hl]; omega), hl,
    show s.window_length - 1 - (s.window_length - i) = i - 1 by omega,
    List.getElem?_take_of_lt (by omega), List.getElem?_drop,
    show 1 + (i - 1) = i by omega,
    List.getElem?_eq_getElem (show i < s.values.length by omega),
    List.getD_eq_getElem _ _ (show i < s.values.length by omega)]
  rfl

theorem pad_right_getD (s : SavitzkyGolaySmoother)
    (hn : s.values.length = 2 * s.window_length + 1)
    {i : ℕ} (h1 : 1 ≤ i) (h2 : i ≤ s.window_length) :
    s.pad_right.getD (i - 1) 0 =
      s.values.getD (s.values.length - 1) 0 +
        |s.values.getD (s.values.length - 1 - i) 0 -
          s.values.getD (s.values.length - 1) 0| := by
  have hl : ((s.values.take (s.values.length - 1)).drop
      (s.values.length - 1 - s.window_length)).length = s.window_length := by
    simp only [List.length_drop, List.length_take]
    omega
  rw [SavitzkyGolaySmoother.pad_right, List.getD_eq_getElem?_getD, List.getElem?_map,
    List.getElem?_reverse (by rw [hl]; omega), hl,
    show s.window_length - 1 - (i - 1) = s.window_length - i by omega,
    List.getElem?_drop,
    show s.values.length - 1 - s.window_length + (s.window_length - i) =
      s.values.length - 1 - i by omega,
    List.getElem?_take_of_lt (by omega),
    List.getElem?_eq_getElem (show s.values.length - 1 - i < s.values.length by omega),
    List.getD_eq_getElem _ _ (show s.values.length - 1 - i < s.values.length by omega),
    getLastD_eq_getD,
    List.getD_eq_getElem _ _ (show s.values.length - 1 < s.values.length by omega)]
  rfl

theorem convolve_valid_length (a v : List ℚ) :
    (convolve_valid a v).length = v.length + 1 - a.length := by
  simp [convolve_valid]

theorem convolve_valid_getD (a v : List ℚ) {t : ℕ} (ht : t < v.length + 1 - a.length) :
    (convolve_valid a v).getD t 0 =
      ∑ j ∈ Finset.range a.length, a.getD j 0 * v.getD (t + (a.length - 1 - j)) 0 := by
  rw [convolve_valid, List.getD_eq_getElem?_getD, List.getElem?_map,
    List.getElem?_range ht]
  rfl

/-- Convolving with the *reversed* kernel in valid mode is pointwise
correlation with the kernel itself: output `t` is `∑ m, l[m] * v[t + m]`. -/
theorem convolve_valid_rev_getD (l v : List ℚ) {t : ℕ} (ht : t < v.length + 1 - l.length) :
    (convolve_valid l.reverse v).getD t 0 =
      ∑ m ∈ Finset.range l.length, l.getD m 0 * v.getD (t + m) 0 := by
  rw [convolve_valid_getD _ _ (by simpa using ht)]
  simp only [List.length_reverse]
  rw [← Finset.sum_range_reflect (fun m => l.getD m 0 * v.getD (t + m) 0) l.length]
  refine Finset.sum_congr rfl ?_
  intro j hj
  rw [Finset.mem_range] at hj
  rw [List.getD_eq_getElem _ _ (by simpa using hj), List.getElem_reverse,
    List.getD_eq_getElem _ _ (show l.length - 1 - j < l.length by omega)]

theorem smooth_length (s : SavitzkyGolaySmoother)
    (hn : s.values.length = 2 * s.window_length + 1)
    (hc : s.coeff_m.length = s.values.length) :
    s.smooth.length = s.values.length := by
  rw [SavitzkyGolaySmoother.smooth, convolve_valid_length]
  simp only [List.length_reverse, List.length_append, pad_left_length s hn,
    pad_right_length s hn, hc]
  omega

/-! ### Coefficient-vector facts -/

theorem designMatrix_col_zero (order w : ℕ) (k : Fin (2 * w + 1)) :
    designMatrix order w k 0 = 1 := by
  simp [designMatrix]

theorem designMatrix_nodes_injective (order w : ℕ) :
    Function.Injective (fun j : Fin (order + 1) => ((j : ℚ) - (w : ℚ))) := by
  intro a b hab
  simp only [sub_left_inj, Nat.cast_inj] at hab
  exact Fin.ext (by exact_mod_cast hab)

/-- Columns of the design matrix are linearly independent: its kernel is
trivial (the nodes `-w … w` are `2w+1 ≥ order+1` distinct points, so a
polynomial of degree `≤ order` vanishing on all of them is zero). -/
theorem designMatrix_mulVec_eq_zero (order w : ℕ) (hrank : order + 1 ≤ 2 * w + 1)
    (x : Fin (order + 1) → ℚ) (hx : (designMatrix order w).mulVec x = 0) : x = 0 := by
  apply Matrix.eq_zero_of_forall_index_sum_pow_mul_eq_zero
    (designMatrix_nodes_injective order w)
  intro j
  have hj := congrFun hx (Fin.castLE hrank j)
  simpa [Matrix.mulVec, Matrix.dotProduct, designMatrix] using hj

theorem gram_mulVec_eq_zero (order w : ℕ) (hrank : order + 1 ≤ 2 * w + 1)
    (x : Fin (order + 1) → ℚ)
    (hx : ((designMatrix order w).transpose * designMatrix order w).mulVec x = 0) :
    x = 0 := by
  have h1 : Matrix.dotProduct ((designMatrix order w).mulVec x)
      ((designMatrix order w).mulVec x) = 0 := by
    have h2 : Matrix.dotProduct x
        (((designMatrix order w).transpose * designMatrix order w).mulVec x) = 0 := by
      rw [hx, Matrix.dotProduct_zero]
    rw [← Matrix.mulVec_mulVec, Matrix.dotProduct_mulVec,
      Matrix.vecMul_transpose] at h2
    exact h2
  have h3 : (designMatrix order w).mulVec x = 0 := by
    funext k
    have h5 := (Finset.sum_eq_zero_iff_of_nonneg
      (fun i _ => mul_self_nonneg ((designMatrix order w).mulVec x i))).mp h1 k
      (Finset.mem_univ k)
    exact mul_self_eq_zero.mp h5
  exact designMatrix_mulVec_eq_zero order w hrank x h3

theorem gram_det_ne_zero (order w : ℕ) (hrank : order + 1 ≤ 2 * w + 1) :
    ((designMatrix order w).transpose * designMatrix order w).det ≠ 0 := by
  intro hdet
  obtain ⟨x, hx0, hx⟩ := Matrix.exists_mulVec_eq_zero_iff.mpr hdet
  exact hx0 (gram_mulVec_eq_zero order w hrank x hx)

theorem matInvQ_eq_inv {n : Type*} [Fintype n] [DecidableEq n] (A : Matrix n n ℚ) :
    matInvQ A = A⁻¹ := by
  rw [matInvQ, Matrix.inv_def, Ring.inverse_eq_inv]

/-- The pseudo-inverse row that the filter uses as its kernel sums to 1:
`pinv(M) * M = I` and the first column of `M` is all ones. -/
theorem sum_pinvRow0 (order w : ℕ) (hrank : order + 1 ≤ 2 * w + 1) :
    ∑ k : Fin (2 * w + 1), pinvRow0 order w k = 1 := by
  have hdet : IsUnit ((designMatrix order w).transpose * designMatrix order w).det :=
    isUnit_iff_ne_zero.mpr (gram_det_ne_zero order w hrank)
  have hinv : ((designMatrix order w).transpose * designMatrix order w)⁻¹ *
      ((designMatrix order w).transpose * designMatrix order w) = 1 :=
    Matrix.nonsing_inv_mul _ hdet
  calc ∑ k : Fin (2 * w + 1), pinvRow0 order w k
      = ∑ k : Fin (2 * w + 1), ∑ i : Fin (order + 1),
          ((designMatrix order w).transpose * designMatrix order w)⁻¹ 0 i *
            (designMatrix order w).transpose i k := by
        refine Finset.sum_congr rfl fun k _ => ?_
        rw [pinvRow0, matInvQ_eq_inv, Matrix.mul_apply]
    _ = ∑ i : Fin (order + 1), ∑ k : Fin (2 * w + 1),
          ((designMatrix order w).transpose * designMatrix order w)⁻¹ 0 i *
            (designMatrix order w).transpose i k := Finset.sum_comm
    _ = ∑ i : Fin (order + 1),
          ((designMatrix order w).transpose * designMatrix order w)⁻¹ 0 i *
            ((designMatrix order w).transpose * designMatrix order w) i 0 := by
        refine Finset.sum_congr rfl fun i _ => ?_
        rw [← Finset.mul_sum]
        congr 1
        rw [Matrix.mul_apply]
        refine Finset.sum_congr rfl fun k _ => ?_
        rw [Matrix.transpose_apply, designMatrix_col_zero, mul_one]
    _ = (((designMatrix order w).transpose * designMatrix order w)⁻¹ *
          ((designMatrix order w).transpose * designMatrix order w)) 0 0 := by
        rw [Matrix.mul_apply]
    _ = 1 := by rw [hinv]; simp [Matrix.one_apply]

theorem list_sum_finRange_map {n : ℕ} (f : Fin n → ℚ) :
    ((List.finRange n).map f).sum = ∑ k : Fin n, f k := by
  rw [Finset.sum, Fin.univ_def]
  rfl

theorem coeff_m_list_sum (order w : ℕ) (hrank : order + 1 ≤ 2 * w + 1) :
    (coeff_m_list order w).sum = 1 := by
  rw [coeff_m_list, list_sum_finRange_map]
  exact sum_pinvRow0 order w hrank

/-- With `polynomial_order = 0` the gram matrix is the `1×1` matrix `[2w+1]`
and every kernel entry is `1/(2w+1)`. -/
theorem pinvRow0_order_zero (w : ℕ) (k : Fin (2 * w + 1)) :
    pinvRow0 0 w k = 1 / ((2 * w + 1 : ℕ) : ℚ) := by
  have hG : (designMatrix 0 w).transpose * designMatrix 0 w =
      Matrix.of fun _ _ : Fin 1 => ((2 * w + 1 : ℕ) : ℚ) := by
    ext i j
    rw [Matrix.mul_apply]
    simp [designMatrix, Matrix.transpose_apply]
  haveI hss : Subsingleton (Fin (0 + 1)) := ⟨fun a b => Fin.ext (by omega)⟩
  rw [pinvRow0, hG, Matrix.mul_apply, Fin.sum_univ_one, matInvQ]
  rw [Matrix.det_fin_one, Matrix.adjugate_subsingleton]
  simp [Matrix.smul_apply, Matrix.one_apply, designMatrix, Matrix.transpose_apply,
    Matrix.of_apply]

theorem coeff_m_list_order_zero (w : ℕ) :
    coeff_m_list 0 w = List.replicate (2 * w + 1) (1 / ((2 * w + 1 : ℕ) : ℚ)) := by
  rw [coeff_m_list,
    List.map_congr_left (fun k _ => pinvRow0_order_zero w k),
    List.map_const', List.length_finRange]

/-- Evaluating construction at `order = 0`, `smooth_time = 0.9`. -/
theorem init_order_zero_eval :
    SavitzkyGolaySmoother.init 0 (9 / 10) = .ok sZero3 := by
  have hc : ⌈(9 / 10 : ℚ) / REPORT_TIME⌉ = 3 := by
    rw [REPORT_TIME]
    norm_num
  have hf : initFrameLength 0 (9 / 10) = 3 := by
    simp only [initFrameLength, hc]
    norm_num
  have hco : coeff_m_list 0 1 = [1 / 3, 1 / 3, 1 / 3] := by
    rw [coeff_m_list_order_zero]
    norm_num [List.replicate_succ]
  simp only [SavitzkyGolaySmoother.init, hf]
  norm_num [sZero3]
  refine ⟨rfl, rfl, ?_, rfl⟩
  exact hco

/-! ### Smoothing a constant buffer -/

theorem getD_replicate {n : ℕ} (v : ℚ) {i : ℕ} (h : i < n) :
    (List.replicate n v).getD i 0 = v := by
  rw [List.getD_eq_getElem _ _ (by simpa using h), List.getElem_replicate]

theorem sum_range_getD (l : List ℚ) :
    ∑ m ∈ Finset.range l.length, l.getD m 0 = l.sum := by
  induction l with
  | nil => simp
  | cons x xs ih =>
    rw [List.length_cons, Finset.sum_range_succ', List.sum_cons]
    simp only [List.getD_cons_succ, List.getD_cons_zero]
    rw [ih, add_comm]

theorem pad_left_replicate (s : SavitzkyGolaySmoother) (v : ℚ)
    (hn : s.values.length = 2 * s.window_length + 1)
    (hval : s.values = List.replicate s.values.length v) :
    s.pad_left = List.replicate s.window_length v := by
  refine List.eq_replicate_iff.mpr ⟨pad_left_length s hn, ?_⟩
  intro b hb
  obtain ⟨j, hj, hbj⟩ := List.mem_iff_getElem.mp hb
  have hjw : j < s.window_length := by rwa [pad_left_length s hn] at hj
  have h1 := pad_left_getD s hn (i := s.window_length - j) (by omega) (by omega)
  rw [show s.window_length - (s.window_length - j) = j by omega] at h1
  rw [hval, getD_replicate v (by omega), getD_replicate v (by omega)] at h1
  rw [← hbj, ← List.getD_eq_getElem _ _ hj, h1]
  simp

theorem pad_right_replicate (s : SavitzkyGolaySmoother) (v : ℚ)
    (hn : s.values.length = 2 * s.window_length + 1)
    (hval : s.values = List.replicate s.values.length v) :
    s.pad_right = List.replicate s.window_length v := by
  refine List.eq_replicate_iff.mpr ⟨pad_right_length s hn, ?_⟩
  intro b hb
  obtain ⟨j, hj, hbj⟩ := List.mem_iff_getElem.mp hb
  have hjw : j < s.window_length := by rwa [pad_right_length s hn] at hj
  have h1 := pad_right_getD s hn (i := j + 1) (by omega) (by omega)
  rw [show j + 1 - 1 = j by omega] at h1
  rw [hval] at h1
  simp only [List.length_replicate] at h1
  rw [getD_replicate v (by omega), getD_replicate v (by omega)] at h1
  rw [← hbj, ← List.getD_eq_getElem _ _ hj, h1]
  simp

/-- Smoothing a constant buffer returns that constant, thanks to the kernel
summing to 1 and both pads degenerating to the constant. -/
theorem smooth_replicate (s : SavitzkyGolaySmoother) (v : ℚ)
    (hn : s.values.length = 2 * s.window_length + 1)
    (hc : s.coeff_m.length = s.values.length)
    (hsum : s.coeff_m.sum = 1)
    (hval : s.values = List.replicate s.values.length v) :
    s.smooth = List.replicate s.values.length v := by
  have hpl := pad_left_replicate s v hn hval
  have hpr := pad_right_replicate s v hn hval
  have hpad : s.pad_left ++ s.values ++ s.pad_right =
      List.replicate (s.window_length + s.values.length + s.window_length) v := by
    rw [hpl, hpr, List.replicate_add, List.replicate_add]
    rw [← hval]
  refine List.eq_replicate_iff.mpr ⟨smooth_length s hn hc, ?_⟩
  intro b hb
  obtain ⟨t, ht, hbt⟩ := List.mem_iff_getElem.mp hb
  have htl : t < s.values.length := by
    rwa [smooth_length s hn hc] at ht
  have hgd : s.smooth.getD t 0 = b := by
    rw [List.getD_eq_getElem _ _ ht]
    exact hbt
  rw [SavitzkyGolaySmoother.smooth] at hgd
  rw [convolve_valid_rev_getD _ _ (by
    simp only [List.length_append, pad_left_length s hn, pad_right_length s hn, hc]
    omega)] at hgd
  rw [hpad] at hgd
  have hterm : ∀ m ∈ Finset.range s.coeff_m.length,
      s.coeff_m.getD m 0 * (List.replicate
        (s.window_length + s.values.length + s.window_length) v).getD (t + m) 0 =
      s.coeff_m.getD m 0 * v := by
    intro m hm
    rw [Finset.mem_range] at hm
    rw [getD_replicate v (by omega)]
  rw [Finset.sum_congr rfl hterm, ← Finset.sum_mul, sum_range_getD, hsum, one_mul] at hgd
  exact hgd.symm

/-- C6: for every correctly constructed filter and every value `v`, calling
`reset(v)` and then `smooth()` returns a sequence of `frame_length` elements
in which every element equals `v`. -/
theorem reset_then_smooth_constant (order : ℕ) (st : ℚ) (s : SavitzkyGolaySmoother)
    (h : SavitzkyGolaySmoother.init order st = .ok s) (v : ℚ) :
    (s.reset v).smooth = List.replicate s.frame_length v := by
  have hw := init_ok_window h
  have hcl := init_ok_coeff_length h
  have hge := init_ok_frame_ge h
  obtain ⟨-, -, -, hc4, -⟩ := init_ok h
  have hvl : (s.reset v).values.length = s.frame_length := by
    simp [SavitzkyGolaySmoother.reset]
  have hres := smooth_replicate (s.reset v) v
    (by rw [hvl]; exact hw)
    (by rw [hvl]; exact hcl)
    (by
      show s.coeff_m.sum = 1
      rw [hc4]
      exact coeff_m_list_sum order s.window_length (by omega))
    (by rw [hvl]; rfl)
  rw [hres, hvl]

/-- Witness for C6: the order-0 smoother reset to `7` smooths to all-`7`s. -/
theorem reset_then_smooth_constant_witness :
    SavitzkyGolaySmoother.init 0 (9 / 10) = .ok sZero3 ∧
    (sZero3.reset 7).smooth = List.replicate sZero3.frame_length 7 :=
  ⟨init_order_zero_eval,
    reset_then_smooth_constant 0 (9 / 10) sZero3 init_order_zero_eval 7⟩

/-- C8: when the smoother is constructed with `polynomial_order = 0`, every
entry of the derived coefficient vector equals `1/frame_length` (a uniform
moving-average kernel). -/
theorem order_zero_uniform_coefficients (st : ℚ) (s : SavitzkyGolaySmoother)
    (h : SavitzkyGolaySmoother.init 0 st = .ok s) :
    s.coeff_m = List.replicate s.frame_length (1 / (s.frame_length : ℚ)) := by
  obtain ⟨-, -, -, hc4, -⟩ := init_ok h
  have hw := init_ok_window h
  rw [hc4, coeff_m_list_order_zero, ← hw]

/-- Witness for C8 at `order = 0`, `smooth_time = 0.9`. -/
theorem order_zero_uniform_coefficients_witness :
    SavitzkyGolaySmoother.init 0 (9 / 10) = .ok sZero3 ∧
    sZero3.coeff_m = List.replicate sZero3.frame_length (1 / (sZero3.frame_length : ℚ)) :=
  ⟨init_order_zero_eval,
    order_zero_uniform_coefficients (9 / 10) sZero3 init_order_zero_eval⟩

/-- C3 (code bug): on a tick the adapter does feed one raw sample to
`update`, computes `smooth()` and rounds the last value to 2 decimals — but
`update_temp` only records the result when it is non-zero (`if temp:`), so a
legitimate smoothed reading of `0.0` is silently dropped and `get_temp`
keeps returning the previous value `5.0`. -/
theorem zero_reading_not_recorded :
    SavitzkyGolaySmoother.init 0 (9 / 10) = .ok pZero.smoother ∧
    ({ pZero with smoother := pZero.smoother.update 0 }
      : PrinterSensorSmoothed).apply_smoothing = 0 ∧
    (pZero.update_temp 0).last_temp = 5 ∧
    (pZero.update_temp 0).get_temp = (5, 0) := by
  have hupd : pZero.smoother.update 0 = pZero.smoother := rfl
  have hsm : sZero3.smooth = [0, 0, 0] := by
    have h := smooth_replicate sZero3 0 rfl rfl (by norm_num [sZero3]) rfl
    simpa [sZero3] using h
  have happ : ({ pZero with smoother := pZero.smoother.update 0 }
      : PrinterSensorSmoothed).apply_smoothing = 0 := by
    rw [PrinterSensorSmoothed.apply_smoothing]
    rw [show ({ pZero with smoother := pZero.smoother.update 0 }
      : PrinterSensorSmoothed).smoother = sZero3 from hupd]
    rw [hsm]
    norm_num [round2, roundHalfEven]
  have hresult : pZero.update_temp 0 = pZero := by
    simp only [PrinterSensorSmoothed.update_temp, happ]
    norm_num
    rw [hupd]
  exact ⟨init_order_zero_eval, happ, by rw [hresult]; rfl, by rw [hresult]; rfl⟩

/-- Witness for C5 at `order = 0`, `smooth_time = 0.9`. -/
theorem frame_length_derivation_witness :
    Odd sZero3.frame_length ∧ 0 + 2 ≤ sZero3.frame_length :=
  ⟨(frame_length_derivation 0 (9 / 10) sZero3 init_order_zero_eval).2.1,
   (frame_length_derivation 0 (9 / 10) sZero3 init_order_zero_eval).2.2.1⟩

/-- C1: for every correctly constructed filter (with any well-formed buffer
contents `buf`), `smooth()` returns exactly `frame_length` values and equals
the valid-mode convolution of the reversed coefficient kernel with
`pad_left ++ buf ++ pad_right`; the left pad has length `half_width` and
satisfies `pad_left[half_width − i] = buf[0] − |buf[i] − buf[0]|` for
`i = 1 … half_width`, and the right pad is the symmetric construction
pivoting on `buf[frame_length − 1]` with the near-right tail reversed:
`pad_right[i − 1] = buf[n−1] + |buf[n−1−i] − buf[n−1]|`. -/
theorem smooth_padded_convolution_spec (order : ℕ) (st : ℚ) (s : SavitzkyGolaySmoother)
    (h : SavitzkyGolaySmoother.init order st = .ok s) (buf : List ℚ)
    (hb : buf.length = s.frame_length) :
    ({ s with values := buf } : SavitzkyGolaySmoother).smooth.length = s.frame_length ∧
    ({ s with values := buf } : SavitzkyGolaySmoother).smooth =
      convolve_valid s.coeff_m.reverse
        (({ s with values := buf } : SavitzkyGolaySmoother).pad_left ++ buf ++
          ({ s with values := buf } : SavitzkyGolaySmoother).pad_right) ∧
    (({ s with values := buf } : SavitzkyGolaySmoother).pad_left.length = s.window_length ∧
     ∀ i, 1 ≤ i → i ≤ s.window_length →
       ({ s with values := buf } : SavitzkyGolaySmoother).pad_left.getD
           (s.window_length - i) 0 =
         buf.getD 0 0 - |buf.getD i 0 - buf.getD 0 0|) ∧
    (({ s with values := buf } : SavitzkyGolaySmoother).pad_right.length = s.window_length ∧
     ∀ i, 1 ≤ i → i ≤ s.window_length →
       ({ s with values := buf } : SavitzkyGolaySmoother).pad_right.getD (i - 1) 0 =
         buf.getD (s.frame_length - 1) 0 +
           |buf.getD (s.frame_length - 1 - i) 0 - buf.getD (s.frame_length - 1) 0|) := by
  have hw := init_ok_window h
  have hcl := init_ok_coeff_length h
  have hn1 : ({ s with values := buf } : SavitzkyGolaySmoother).values.length =
      2 * ({ s with values := buf } : SavitzkyGolaySmoother).window_length + 1 := by
    show buf.length = 2 * s.window_length + 1
    omega
  have hc1 : ({ s with values := buf } : SavitzkyGolaySmoother).coeff_m.length =
      ({ s with values := buf } : SavitzkyGolaySmoother).values.length := by
    show s.coeff_m.length = buf.length
    omega
  refine ⟨?_, rfl, ⟨pad_left_length _ hn1, ?_⟩, ⟨pad_right_length _ hn1, ?_⟩⟩
  · rw [smooth_length _ hn1 hc1]
    exact hb
  · intro i h1 h2
    exact pad_left_getD _ hn1 h1 h2
  · intro i h1 h2
    have h3 := pad_right_getD ({ s with values := buf } : SavitzkyGolaySmoother) hn1 h1 h2
    rw [show ({ s with values := buf } : SavitzkyGolaySmoother).values.length =
      s.frame_length from hb] at h3
    exact h3

/-- Witness for C1 at the concrete state `init 0 0.9` with buffer `[1, 2, 3]`:
the smoothed output has `frame_length = 3` entries, and the single left-pad
entry reflects the deviation of `buf[1]` below `buf[0]`. -/
theorem smooth_padded_convolution_spec_witness :
    sInc.smooth.length = sZero3.frame_length ∧
    sInc.pad_left.getD (sZero3.window_length - 1) 0 =
      (sInc.values.getD 0 0 - |sInc.values.getD 1 0 - sInc.values.getD 0 0|) :=
  ⟨(smooth_padded_convolution_spec 0 (9 / 10) sZero3 init_order_zero_eval
      [1, 2, 3] rfl).1,
   (smooth_padded_convolution_spec 0 (9 / 10) sZero3 init_order_zero_eval
      [1, 2, 3] rfl).2.2.1.2 1 le_rfl le_rfl⟩

/-- C10: for every correctly constructed filter instance (with any well-formed
buffer contents), `reset` and `update` are total operations that change only
the sample buffer — `frame_length`, `window_length` and the coefficient
vector are untouched and the buffer keeps its length — and `smooth` is a pure
function of the state returning exactly `frame_length` values (in this
embedding `smooth : SavitzkyGolaySmoother → List ℚ` by construction reads
but never writes the state). -/
theorem core_ops_total_and_frame (order : ℕ) (st : ℚ) (s : SavitzkyGolaySmoother)
    (h : SavitzkyGolaySmoother.init order st = .ok s) (buf : List ℚ)
    (hb : buf.length = s.frame_length) (v : ℚ) :
    ((({ s with values := buf } : SavitzkyGolaySmoother).reset v).frame_length =
        s.frame_length ∧
     (({ s with values := buf } : SavitzkyGolaySmoother).reset v).window_length =
        s.window_length ∧
     (({ s with values := buf } : SavitzkyGolaySmoother).reset v).coeff_m = s.coeff_m ∧
     (({ s with values := buf } : SavitzkyGolaySmoother).reset v).values.length =
        buf.length) ∧
    ((({ s with values := buf } : SavitzkyGolaySmoother).update v).frame_length =
        s.frame_length ∧
     (({ s with values := buf } : SavitzkyGolaySmoother).update v).window_length =
        s.window_length ∧
     (({ s with values := buf } : SavitzkyGolaySmoother).update v).coeff_m = s.coeff_m ∧
     (({ s with values := buf } : SavitzkyGolaySmoother).update v).values.length =
        buf.length) ∧
    ({ s with values := buf } : SavitzkyGolaySmoother).smooth.length = s.frame_length := by
  have hw := init_ok_window h
  have hcl := init_ok_coeff_length h
  have hge := init_ok_frame_ge h
  have hn1 : ({ s with values := buf } : SavitzkyGolaySmoother).values.length =
      2 * ({ s with values := buf } : SavitzkyGolaySmoother).window_length + 1 := by
    show buf.length = 2 * s.window_length + 1
    omega
  have hc1 : ({ s with values := buf } : SavitzkyGolaySmoother).coeff_m.length =
      ({ s with values := buf } : SavitzkyGolaySmoother).values.length := by
    show s.coeff_m.length = buf.length
    omega
  refine ⟨⟨rfl, rfl, rfl, ?_⟩, ⟨rfl, rfl, rfl, ?_⟩, ?_⟩
  · show (List.replicate s.frame_length v).length = buf.length
    simp [hb]
  · show (buf.drop 1 ++ [v]).length = buf.length
    simp only [List.length_append, List.length_drop, List.length_cons, List.length_nil]
    omega
  · rw [smooth_length _ hn1 hc1]
    exact hb

/-- Witness for C10 at the concrete state `init 0 0.9` with buffer `[1, 2, 3]`
and `v = 4`. -/
theorem core_ops_total_and_frame_witness :
    (sInc.update 4).coeff_m = sZero3.coeff_m ∧
    (sInc.reset 4).values.length = sInc.values.length ∧
    sInc.smooth.length = sZero3.frame_length :=
  ⟨(core_ops_total_and_frame 0 (9 / 10) sZero3 init_order_zero_eval
      [1, 2, 3] rfl 4).2.1.2.2.1,
   (core_ops_total_and_frame 0 (9 / 10) sZero3 init_order_zero_eval
      [1, 2, 3] rfl 4).1.2.2.2,
   (core_ops_total_and_frame 0 (9 / 10) sZero3 init_order_zero_eval
      [1, 2, 3] rfl 4).2.2⟩

/-! ### Padding versus naive replication, and trend preservation -/

theorem chain_lt_of_getD (l : List ℚ)
    (h : ∀ i, i + 1 < l.length → l.getD i 0 < l.getD (i + 1) 0) :
    List.Chain' (fun a b => a < b) l := by
  rw [List.chain'_iff_get]
  intro i hi
  have h2 := h i (by omega)
  rw [List.getD_eq_getElem _ _ (by omega), List.getD_eq_getElem _ _ (by omega)] at h2
  simpa using h2

theorem getD_lt_of_chain_lt (l : List ℚ)
    (hm : List.Chain' (fun a b => a < b) l)
    {i j : ℕ} (hij : i < j) (hj : j < l.length) :
    l.getD i 0 < l.getD j 0 := by
  have hpw := List.chain'_iff_pairwise.mp hm
  have h2 := List.pairwise_iff_getElem.mp hpw i j (by omega) hj hij
  rwa [List.getD_eq_getElem _ _ (by omega), List.getD_eq_getElem _ _ hj]

theorem padded_getD_left (s : SavitzkyGolaySmoother) {j : ℕ}
    (hj : j < s.pad_left.length) :
    (s.pad_left ++ s.values ++ s.pad_right).getD j 0 = s.pad_left.getD j 0 := by
  rw [List.getD_eq_getElem?_getD, List.getD_eq_getElem?_getD,
    List.getElem?_append_left (by simp only [List.length_append]; omega),
    List.getElem?_append_left hj]

theorem padded_getD_mid (s : SavitzkyGolaySmoother) {j : ℕ}
    (hj : j < s.values.length) :
    (s.pad_left ++ s.values ++ s.pad_right).getD (s.pad_left.length + j) 0 =
      s.values.getD j 0 := by
  rw [List.getD_eq_getElem?_getD, List.getD_eq_getElem?_getD,
    List.getElem?_append_left
      (by simp only [List.length_append]; omega),
    List.getElem?_append_right (by omega),
    show s.pad_left.length + j - s.pad_left.length = j by omega]

theorem padded_getD_right (s : SavitzkyGolaySmoother) {j : ℕ} :
    (s.pad_left ++ s.values ++ s.pad_right).getD
      (s.pad_left.length + s.values.length + j) 0 = s.pad_right.getD j 0 := by
  rw [List.getD_eq_getElem?_getD, List.getD_eq_getElem?_getD,
    List.getElem?_append_right
      (by simp only [List.length_append]; omega)]
  simp only [List.length_append]
  rw [show s.pad_left.length + s.values.length + j -
    (s.pad_left.length + s.values.length) = j by omega]

/-- C9: for every well-formed filter state whose buffer is not constant, the
deviation-reflection pads differ from naive edge-value replication on at
least one side; and for a strictly increasing buffer the padded sequence
`pad_left ++ buffer ++ pad_right` continues the increasing trend through both
edges (it is strictly increasing end to end). -/
theorem padding_reflects_deviation (s : SavitzkyGolaySmoother)
    (hf : s.frame_length = 2 * s.window_length + 1)
    (hv : s.values.length = s.frame_length) :
    (s.values ≠ List.replicate s.values.length (s.values.getD 0 0) →
      s.pad_left ≠ List.replicate s.window_length (s.values.getD 0 0) ∨
      s.pad_right ≠ List.replicate s.window_length (s.values.getLastD 0)) ∧
    (List.Chain' (fun a b => a < b) s.values →
      List.Chain' (fun a b => a < b) (s.pad_left ++ s.values ++ s.pad_right)) := by
  have hn : s.values.length = 2 * s.window_length + 1 := by omega
  constructor
  · intro hnc
    by_contra hcon
    push_neg at hcon
    obtain ⟨hl, hr⟩ := hcon
    apply hnc
    have hleft : ∀ i, 1 ≤ i → i ≤ s.window_length →
        s.values.getD i 0 = s.values.getD 0 0 := by
      intro i h1 h2
      have hp := pad_left_getD s hn h1 h2
      rw [hl, getD_replicate _ (by omega)] at hp
      have habs : |s.values.getD i 0 - s.values.getD 0 0| = 0 := by linarith
      have h3 := abs_eq_zero.mp habs
      linarith
    have hright : ∀ i, 1 ≤ i → i ≤ s.window_length →
        s.values.getD (s.values.length - 1 - i) 0 =
          s.values.getD (s.values.length - 1) 0 := by
      intro i h1 h2
      have hp := pad_right_getD s hn h1 h2
      rw [hr, getD_replicate _ (by omega), getLastD_eq_getD] at hp
      have habs : |s.values.getD (s.values.length - 1 - i) 0 -
          s.values.getD (s.values.length - 1) 0| = 0 := by linarith
      have h3 := abs_eq_zero.mp habs
      linarith
    refine List.eq_replicate_iff.mpr ⟨rfl, ?_⟩
    intro b hb
    obtain ⟨k, hk, hbk⟩ := List.mem_iff_getElem.mp hb
    rw [← hbk, ← List.getD_eq_getElem _ _ hk]
    rcases Nat.eq_zero_or_pos s.window_length with hw0 | hw1
    · rw [show k = 0 by omega]
    · rcases Nat.eq_zero_or_pos k with hk0 | hk1
      · rw [hk0]
      · by_cases hkw : k ≤ s.window_length
        · exact hleft k hk1 hkw
        · have hlink : s.values.getD (s.values.length - 1) 0 = s.values.getD 0 0 := by
            have ha := hleft s.window_length hw1 le_rfl
            have hb2 := hright s.window_length hw1 le_rfl
            rw [show s.values.length - 1 - s.window_length = s.window_length by omega,
              ha] at hb2
            exact hb2.symm
          by_cases hke : k = s.values.length - 1
          · rw [hke, hlink]
          · have h5 := hright (s.values.length - 1 - k) (by omega) (by omega)
            rw [show s.values.length - 1 - (s.values.length - 1 - k) = k by omega] at h5
            rw [h5, hlink]
  · intro hmono
    have hsorted : ∀ i j, i < j → j < s.values.length →
        s.values.getD i 0 < s.values.getD j 0 :=
      fun i j hij hj => getD_lt_of_chain_lt s.values hmono hij hj
    have hplen := pad_left_length s hn
    have hprlen := pad_right_length s hn
    have hplval : ∀ j, j < s.window_length →
        s.pad_left.getD j 0 =
          2 * s.values.getD 0 0 - s.values.getD (s.window_length - j) 0 := by
      intro j hj
      have hp := pad_left_getD s hn (i := s.window_length - j) (by omega) (by omega)
      rw [show s.window_length - (s.window_length - j) = j by omega] at hp
      rw [hp, abs_of_nonneg (by
        have h6 := hsorted 0 (s.window_length - j) (by omega) (by omega)
        linarith)]
      ring
    have hprval : ∀ j, j < s.window_length →
        s.pad_right.getD j 0 =
          2 * s.values.getD (s.values.length - 1) 0 -
            s.values.getD (s.values.length - 2 - j) 0 := by
      intro j hj
      have hp := pad_right_getD s hn (i := j + 1) (by omega) (by omega)
      rw [show j + 1 - 1 = j by omega,
        show s.values.length - 1 - (j + 1) = s.values.length - 2 - j by omega] at hp
      rw [hp, abs_of_nonpos (by
        have h6 := hsorted (s.values.length - 2 - j) (s.values.length - 1)
          (by omega) (by omega)
        linarith)]
      ring
    apply chain_lt_of_getD
    intro i hi
    rw [List.length_append, List.length_append, hplen, hprlen] at hi
    by_cases c1 : i + 1 < s.window_length
    · rw [padded_getD_left s (show i < s.pad_left.length by omega),
        padded_getD_left s (show i + 1 < s.pad_left.length by omega),
        hplval i (by omega), hplval (i + 1) (by omega)]
      have h6 := hsorted (s.window_length - (i + 1)) (s.window_length - i)
        (by omega) (by omega)
      linarith
    · by_cases c2 : i + 1 = s.window_length
      · rw [padded_getD_left s (show i < s.pad_left.length by omega),
          hplval i (by omega),
          show i + 1 = s.pad_left.length + 0 by omega,
          padded_getD_mid s (show 0 < s.values.length by omega),
          show s.window_length - i = 1 by omega]
        have h6 := hsorted 0 1 (by omega) (by omega)
        linarith
      · by_cases c3 : i + 1 < s.window_length + s.values.length
        · rw [show i = s.pad_left.length + (i - s.window_length) by omega,
            padded_getD_mid s (show i - s.window_length < s.values.length by omega),
            show s.pad_left.length + (i - s.window_length) + 1 =
              s.pad_left.length + (i - s.window_length + 1) by omega,
            padded_getD_mid s (show i - s.window_length + 1 < s.values.length by omega)]
          exact hsorted _ _ (by omega) (by omega)
        · by_cases c4 : i + 1 = s.window_length + s.values.length
          · rw [show i = s.pad_left.length + (s.values.length - 1) by omega,
              padded_getD_mid s (show s.values.length - 1 < s.values.length by omega),
              show s.pad_left.length + (s.values.length - 1) + 1 =
                s.pad_left.length + s.values.length + 0 by omega,
              padded_getD_right s, hprval 0 (by omega),
              show s.values.length - 2 - 0 = s.values.length - 2 by omega]
            have h6 := hsorted (s.values.length - 2) (s.values.length - 1)
              (by omega) (by omega)
            linarith
          · rw [show i = s.pad_left.length + s.values.length +
                (i - s.window_length - s.values.length) by omega,
              padded_getD_right s,
              hprval _ (show i - s.window_length - s.values.length <
                s.window_length by omega),
              show s.pad_left.length + s.values.length +
                  (i - s.window_length - s.values.length) + 1 =
                s.pad_left.length + s.values.length +
                  (i - s.window_length - s.values.length + 1) by omega,
              padded_getD_right s,
              hprval _ (show i - s.window_length - s.values.length + 1 <
                s.window_length by omega)]
            have h6 := hsorted
              (s.values.length - 2 - (i - s.window_length - s.values.length + 1))
              (s.values.length - 2 - (i - s.window_length - s.values.length))
              (by omega) (by omega)
            linarith

/-- Witness for C9 at the buffer `[1, 2, 3]`: it is non-constant and strictly
increasing, so the pads differ from naive replication on at least one side
and the padded sequence is strictly increasing end to end. -/
theorem padding_reflects_deviation_witness :
    (sInc.pad_left ≠ List.replicate sInc.window_length (sInc.values.getD 0 0) ∨
     sInc.pad_right ≠ List.replicate sInc.window_length (sInc.values.getLastD 0)) ∧
    List.Chain' (fun a b => a < b) (sInc.pad_left ++ sInc.values ++ sInc.pad_right) :=
  ⟨(padding_reflects_deviation sInc rfl rfl).1 (by decide),
   (padding_reflects_deviation sInc rfl rfl).2
     (by norm_num [sInc, sZero3, List.chain'_cons, List.chain'_singleton])⟩

end TempSmoothing
